import Mathlib

/-!
Verification of the composition algebra and geometric transform pipeline of a
signed-distance-field (SDF) library (`sdf/d3.py`).

The embedding is a shallow one over exact real numbers:

* a point batch is processed row by row, so row-wise primitives and operators
  are modelled as functions `Vec3 → ℝ` (the distance at one sample point);
* `numpy` row vectors and 3×3 matrices become `Vec3` and `Mat3`, with
  `np.dot(p, M)` (a row vector times a matrix) becoming `mulVecLeft`;
* claims about in-place array writes are modelled with an explicit store of
  2-D arrays, where allocating operations (`np.abs`, fancy indexing,
  arithmetic) produce fresh arrays and the masked / column assignments of the
  source are store writes;
* the operator registry `_ops` and the `__getattr__` dispatch of `SDF3` are
  modelled with the list of registered names and an `Except`-valued lookup.
-/

namespace SDFSpec

open Real

noncomputable section

/-- A 3-D point / vector: one row of a `numpy` point batch. -/
@[ext]
structure Vec3 where
  x : ℝ
  y : ℝ
  z : ℝ

namespace Vec3

instance : Add Vec3 := ⟨fun a b => ⟨a.x + b.x, a.y + b.y, a.z + b.z⟩⟩

instance : Sub Vec3 := ⟨fun a b => ⟨a.x - b.x, a.y - b.y, a.z - b.z⟩⟩

instance : Neg Vec3 := ⟨fun a => ⟨-a.x, -a.y, -a.z⟩⟩

instance : Zero Vec3 := ⟨⟨0, 0, 0⟩⟩

@[simp] theorem add_x (a b : Vec3) : (a + b).x = a.x + b.x := rfl

@[simp] theorem add_y (a b : Vec3) : (a + b).y = a.y + b.y := rfl

@[simp] theorem add_z (a b : Vec3) : (a + b).z = a.z + b.z := rfl

@[simp] theorem sub_x (a b : Vec3) : (a - b).x = a.x - b.x := rfl

@[simp] theorem sub_y (a b : Vec3) : (a - b).y = a.y - b.y := rfl

@[simp] theorem sub_z (a b : Vec3) : (a - b).z = a.z - b.z := rfl

@[simp] theorem zero_x : (0 : Vec3).x = 0 := rfl

@[simp] theorem zero_y : (0 : Vec3).y = 0 := rfl

@[simp] theorem zero_z : (0 : Vec3).z = 0 := rfl

end Vec3

/-- Scalar multiplication of a vector (`s * v` on a `numpy` 3-vector). -/
def rsmul (s : ℝ) (v : Vec3) : Vec3 := ⟨s * v.x, s * v.y, s * v.z⟩

/-- Division of a vector by a scalar (`p / r` on a row of a batch). -/
def rdiv (v : Vec3) (s : ℝ) : Vec3 := ⟨v.x / s, v.y / s, v.z / s⟩

/-- Componentwise absolute value (`np.abs` on a row). -/
def vabs (v : Vec3) : Vec3 := ⟨|v.x|, |v.y|, |v.z|⟩

/-- `_dot` / `np.dot` of two 3-vectors. -/
def dot3 (a b : Vec3) : ℝ := a.x * b.x + a.y * b.y + a.z * b.z

/-- `np.cross` of two 3-vectors. -/
def cross3 (a b : Vec3) : Vec3 :=
  ⟨a.y * b.z - a.z * b.y, a.z * b.x - a.x * b.z, a.x * b.y - a.y * b.x⟩

/-- `np.linalg.norm` of a 3-vector. -/
def norm3 (v : Vec3) : ℝ := Real.sqrt (v.x ^ 2 + v.y ^ 2 + v.z ^ 2)

/-- `_normalize(a) = a / np.linalg.norm(a)`. -/
def normalize3 (v : Vec3) : Vec3 := rdiv v (norm3 v)

/-- The constant `X = np.array((1, 0, 0))`. -/
def Xv : Vec3 := ⟨1, 0, 0⟩

/-- The constant `Z = np.array((0, 0, 1))`; also `UP = Z`. -/
def Zv : Vec3 := ⟨0, 0, 1⟩

/-- The constant `ORIGIN = np.array((0, 0, 0))`. -/
def ORIGINv : Vec3 := ⟨0, 0, 0⟩

/-- A 3×3 matrix given by its rows, as a `numpy` 2-D array. -/
@[ext]
structure Mat3 where
  r0 : Vec3
  r1 : Vec3
  r2 : Vec3

/-- Matrix transpose (`.T`). -/
def transpose3 (M : Mat3) : Mat3 :=
  ⟨⟨M.r0.x, M.r1.x, M.r2.x⟩, ⟨M.r0.y, M.r1.y, M.r2.y⟩, ⟨M.r0.z, M.r1.z, M.r2.z⟩⟩

/-- `np.dot(p, M)`: a row vector times a matrix. -/
def mulVecLeft (v : Vec3) (M : Mat3) : Vec3 :=
  ⟨v.x * M.r0.x + v.y * M.r1.x + v.z * M.r2.x,
   v.x * M.r0.y + v.y * M.r1.y + v.z * M.r2.y,
   v.x * M.r0.z + v.y * M.r1.z + v.z * M.r2.z⟩

/-- `np.matmul` of two 3×3 matrices. -/
def matmul3 (M N : Mat3) : Mat3 :=
  ⟨mulVecLeft M.r0 N, mulVecLeft M.r1 N, mulVecLeft M.r2 N⟩

/-- The identity 3×3 matrix. -/
def id3 : Mat3 := ⟨⟨1, 0, 0⟩, ⟨0, 1, 0⟩, ⟨0, 0, 1⟩⟩

theorem mulVecLeft_mulVecLeft (v : Vec3) (M N : Mat3) :
    mulVecLeft (mulVecLeft v M) N = mulVecLeft v (matmul3 M N) := by
  simp only [mulVecLeft, matmul3]
  ext <;> ring

theorem mulVecLeft_id3 (v : Vec3) : mulVecLeft v id3 = v := by
  simp only [mulVecLeft, id3]
  ext <;> ring

theorem matmul3_assoc (M N P : Mat3) :
    matmul3 (matmul3 M N) P = matmul3 M (matmul3 N P) := by
  simp only [matmul3, mulVecLeft]
  ext <;> ring

/-- If a vector is nonzero then the sum of the squares of its components is
positive. -/
theorem sumsq_pos_of_ne_zero {v : Vec3} (h : v ≠ 0) :
    0 < v.x ^ 2 + v.y ^ 2 + v.z ^ 2 := by
  rcases lt_or_eq_of_le (by positivity : (0:ℝ) ≤ v.x ^ 2 + v.y ^ 2 + v.z ^ 2) with hlt | heq
  · exact hlt
  · exfalso
    apply h
    have hx : v.x = 0 := by nlinarith [sq_nonneg v.x, sq_nonneg v.y, sq_nonneg v.z]
    have hy : v.y = 0 := by nlinarith [sq_nonneg v.x, sq_nonneg v.y, sq_nonneg v.z]
    have hz : v.z = 0 := by nlinarith [sq_nonneg v.x, sq_nonneg v.y, sq_nonneg v.z]
    ext <;> simp [hx, hy, hz]

theorem norm3_pos_of_ne_zero {v : Vec3} (h : v ≠ 0) : 0 < norm3 v :=
  Real.sqrt_pos.mpr (sumsq_pos_of_ne_zero h)

/-- The normalized form of a nonzero vector has unit sum of squares. -/
theorem normalize3_sumsq {v : Vec3} (h : v ≠ 0) :
    (normalize3 v).x ^ 2 + (normalize3 v).y ^ 2 + (normalize3 v).z ^ 2 = 1 := by
  have hpos := sumsq_pos_of_ne_zero h
  have hn : norm3 v ^ 2 = v.x ^ 2 + v.y ^ 2 + v.z ^ 2 := Real.sq_sqrt hpos.le
  have hnz : norm3 v ≠ 0 := (norm3_pos_of_ne_zero h).ne'
  simp only [normalize3, rdiv]
  field_simp
  linarith [hn]

-- Primitives

/-- `plane(normal, point)` from the source: normalizes `normal`, then the
distance at `p` is `np.dot(point - p, normal)`. -/
def plane (normal : Vec3) (point : Vec3) : Vec3 → ℝ :=
  let n := normalize3 normal
  fun p => dot3 (point - p) n

-- Positioning operators

/-- `translate(other, offset)`: evaluate `other` at `p - offset`. -/
def translate (other : Vec3 → ℝ) (offset : Vec3) : Vec3 → ℝ :=
  fun p => other (p - offset)

/-- The 3×3 array literal built by `rotate` (and by `rotateD`, `mirror`,
`mirror_copy`) before the trailing `.T`, for a normalized axis `(x, y, z)`
and `s = sin`, `c = cos`, `m = 1 - c`. -/
def rodArr (x y z s c : ℝ) : Mat3 :=
  let m := 1 - c
  ⟨⟨m * x * x + c, m * x * y + z * s, m * z * x - y * s⟩,
   ⟨m * x * y - z * s, m * y * y + c, m * y * z + x * s⟩,
   ⟨m * z * x + y * s, m * y * z - x * s, m * z * z + c⟩⟩

/-- `rotate(other, angle, vector)` from the source: Rodrigues matrix from the
normalized axis and the angle in radians, transposed, applied to the point on
the left. -/
def rotate (other : Vec3 → ℝ) (angle : ℝ) (vector : Vec3) : Vec3 → ℝ :=
  let n := normalize3 vector
  let s := Real.sin angle
  let c := Real.cos angle
  let matrix := transpose3 (rodArr n.x n.y n.z s c)
  fun p => other (mulVecLeft p matrix)

/-- `rotateD(other, angle, vector)` from the source: identical to `rotate`
except that `sin` and `cos` are taken at `angle * (180 / pi)`. -/
def rotateD (other : Vec3 → ℝ) (angle : ℝ) (vector : Vec3) : Vec3 → ℝ :=
  let n := normalize3 vector
  let s := Real.sin (angle * (180 / Real.pi))
  let c := Real.cos (angle * (180 / Real.pi))
  let matrix := transpose3 (rodArr n.x n.y n.z s c)
  fun p => other (mulVecLeft p matrix)

-- C6: rotate by a zero angle

/-- Claim C6: for every field `A` and every axis vector, `rotate(A, 0, axis)`
is the identity field: it evaluates identically to `A` at every point. -/
theorem rotate_zero_angle_identity (other : Vec3 → ℝ) (axis : Vec3) (p : Vec3) :
    rotate other 0 axis p = other p := by
  simp only [rotate, Real.sin_zero, Real.cos_zero, rodArr, transpose3, mulVecLeft]
  congr 1
  ext <;> ring

-- C8: plane sign convention

/-- Claim C8: for every nonzero normal `n`, anchor `q` and scalar `s`,
`plane(n, q)` evaluated at `q + s * (n normalized)` yields `-s`: points on
the positive side along the normal get negative distances (inside). -/
theorem plane_signed_distance (n q : Vec3) (s : ℝ) (hn : n ≠ 0) :
    plane n q (q + rsmul s (normalize3 n)) = -s := by
  have hu := normalize3_sumsq hn
  simp only [plane, dot3, rsmul, Vec3.sub_x, Vec3.sub_y, Vec3.sub_z, Vec3.add_x,
    Vec3.add_y, Vec3.add_z]
  linear_combination (-s) * hu

/-- Witness for C8 at `n = Z`, `q = ORIGIN`, `s = 2`. -/
theorem plane_signed_distance_witness :
    plane Zv ORIGINv (ORIGINv + rsmul 2 (normalize3 Zv)) = -2 := by
  have hz : Zv ≠ 0 := by
    intro h
    have := congrArg Vec3.z h
    simp [Zv] at this
  exact plane_signed_distance Zv ORIGINv 2 hz

-- C1: rotateD angle conversion

theorem normalize3_Zv : normalize3 Zv = ⟨0, 0, 1⟩ := by
  have h1 : norm3 ⟨0, 0, 1⟩ = 1 := by
    simp only [norm3]
    norm_num
  simp [normalize3, Zv, h1, rdiv]

theorem normalize3_Xv : normalize3 Xv = ⟨1, 0, 0⟩ := by
  have h1 : norm3 ⟨1, 0, 0⟩ = 1 := by
    simp only [norm3]
    norm_num
  simp [normalize3, Xv, h1, rdiv]

/-- Evaluation of `rotate` about the `Z` axis on the field `plane(X, ORIGIN)`
(whose value at `q` is `-q.x`) at the point `(1, 0, 0)`. -/
theorem rotate_planeX_Zv (angle : ℝ) :
    rotate (plane Xv ORIGINv) angle Zv ⟨1, 0, 0⟩ = -(Real.cos angle) := by
  simp [rotate, normalize3_Zv, rodArr, transpose3, mulVecLeft, plane, dot3,
    normalize3_Xv, ORIGINv]

theorem cos_pi_cubed_div_ne_zero : Real.cos (Real.pi ^ 3 / 64800) ≠ 0 := by
  intro h
  rcases Real.cos_eq_zero_iff.mp h with ⟨k, hk⟩
  have h2 : Real.pi ^ 3 = 32400 * (2 * (k : ℝ) + 1) * Real.pi := by linarith
  have h3 : Real.pi ^ 2 = 32400 * (2 * (k : ℝ) + 1) := by
    have h4 : Real.pi ^ 2 * Real.pi = 32400 * (2 * (k : ℝ) + 1) * Real.pi := by
      ring_nf
      ring_nf at h2
      linarith
    exact mul_right_cancel₀ Real.pi_ne_zero h4
  rcases le_or_lt 0 k with hk0 | hk0
  · have hc : (0 : ℝ) ≤ (k : ℝ) := by exact_mod_cast hk0
    nlinarith [Real.pi_lt_d2, Real.pi_pos]
  · have hc : (k : ℝ) ≤ -1 := by
      have : k ≤ -1 := by omega
      exact_mod_cast this
    nlinarith [Real.pi_pos]

/-- Claim C1: `rotateD` multiplies its angle by `180 / pi` before taking
`sin`/`cos`, so it equals `rotate` at the angle `a * (180 / pi)` — not at the
degrees-to-radians conversion `a * (pi / 180)` that the claim states; at
`A = plane(X, ORIGIN)`, `a = pi^2 / 360`, axis `Z`, point `(1, 0, 0)` the two
sides differ. -/
theorem rotateD_conversion_bug :
    (∀ (other : Vec3 → ℝ) (a : ℝ) (v p : Vec3),
        rotateD other a v p = rotate other (a * (180 / Real.pi)) v p) ∧
    rotateD (plane Xv ORIGINv) (Real.pi ^ 2 / 360) Zv ⟨1, 0, 0⟩ ≠
      rotate (plane Xv ORIGINv) (Real.pi ^ 2 / 360 * (Real.pi / 180)) Zv ⟨1, 0, 0⟩ := by
  constructor
  · intro other a v p
    rfl
  · have hL : rotateD (plane Xv ORIGINv) (Real.pi ^ 2 / 360) Zv ⟨1, 0, 0⟩ = 0 := by
      have he : Real.pi ^ 2 / 360 * (180 / Real.pi) = Real.pi / 2 := by
        field_simp
        ring
      show rotate (plane Xv ORIGINv) (Real.pi ^ 2 / 360 * (180 / Real.pi)) Zv ⟨1, 0, 0⟩ = 0
      rw [he, rotate_planeX_Zv, Real.cos_pi_div_two, neg_zero]
    have hR : rotate (plane Xv ORIGINv) (Real.pi ^ 2 / 360 * (Real.pi / 180)) Zv ⟨1, 0, 0⟩ =
        -(Real.cos (Real.pi ^ 3 / 64800)) := by
      have he : Real.pi ^ 2 / 360 * (Real.pi / 180) = Real.pi ^ 3 / 64800 := by
        field_simp
        ring
      rw [he, rotate_planeX_Zv]
    rw [hL, hR]
    intro h
    exact cos_pi_cubed_div_ne_zero (by linarith)

-- C9: tetrahedron ignores its radius parameter

/-- `tetrahedron(r)` from the source: the parameter `r` is not used in the
body. -/
def tetrahedron (r : ℝ) : Vec3 → ℝ :=
  fun p =>
    (max (|p.x + p.y| - p.z) (|p.x - p.y| + p.z) - 1) / Real.sqrt 3

/-- Claim C9: the radius parameter of `tetrahedron` is ignored: for all radii
`r1`, `r2` and every point `p`, `tetrahedron(r1)` and `tetrahedron(r2)`
evaluate to equal distances at `p`. -/
theorem tetrahedron_ignores_radius (r1 r2 : ℝ) (p : Vec3) :
    tetrahedron r1 p = tetrahedron r2 p := rfl

-- C4: mirror is an involution

/-- The flip array `[[1, 0, 0], [0, 1, 0], [0, 0, -1]]` used by `mirror`. -/
def flipArr : Mat3 := ⟨⟨1, 0, 0⟩, ⟨0, 1, 0⟩, ⟨0, 0, -1⟩⟩

/-- `UP = Z`. -/
def UPv : Vec3 := Zv

theorem matmul3_id3_left (M : Mat3) : matmul3 id3 M = M := by
  simp only [matmul3, mulVecLeft, id3]
  ext <;> ring

theorem matmul3_id3_right (M : Mat3) : matmul3 M id3 = M := by
  simp only [matmul3, mulVecLeft, id3]
  ext <;> ring

/-- The Rodrigues array for a unit axis and a unit `(s, c)` pair is
orthogonal: the array times its transpose is the identity. -/
theorem rod_mul_rodT (x y z s c : ℝ) (h1 : x ^ 2 + y ^ 2 + z ^ 2 = 1)
    (h2 : s ^ 2 + c ^ 2 = 1) :
    matmul3 (rodArr x y z s c) (transpose3 (rodArr x y z s c)) = id3 := by
  simp only [rodArr, transpose3, matmul3, mulVecLeft, id3]
  ext
  · linear_combination ((1 - c) ^ 2 * x ^ 2 + s ^ 2) * h1 + (1 - x ^ 2) * h2
  · linear_combination (1 - c) ^ 2 * x * y * h1 - x * y * h2
  · linear_combination (1 - c) ^ 2 * x * z * h1 - x * z * h2
  · linear_combination (1 - c) ^ 2 * x * y * h1 - x * y * h2
  · linear_combination ((1 - c) ^ 2 * y ^ 2 + s ^ 2) * h1 + (1 - y ^ 2) * h2
  · linear_combination (1 - c) ^ 2 * y * z * h1 - y * z * h2
  · linear_combination (1 - c) ^ 2 * x * z * h1 - x * z * h2
  · linear_combination (1 - c) ^ 2 * y * z * h1 - y * z * h2
  · linear_combination ((1 - c) ^ 2 * z ^ 2 + s ^ 2) * h1 + (1 - z ^ 2) * h2

/-- Transposing the Rodrigues array negates its `s` parameter. -/
theorem transpose_rodArr (x y z s c : ℝ) :
    transpose3 (rodArr x y z s c) = rodArr x y z (-s) c := by
  simp only [rodArr, transpose3]
  ext <;> ring

theorem rodT_mul_rod (x y z s c : ℝ) (h1 : x ^ 2 + y ^ 2 + z ^ 2 = 1)
    (h2 : s ^ 2 + c ^ 2 = 1) :
    matmul3 (transpose3 (rodArr x y z s c)) (rodArr x y z s c) = id3 := by
  have h2' : (-s) ^ 2 + c ^ 2 = 1 := by
    ring_nf
    ring_nf at h2
    linarith
  have h := rod_mul_rodT x y z (-s) c h1 h2'
  rw [transpose_rodArr, neg_neg] at h
  rw [transpose_rodArr]
  exact h

theorem flipT_mul_flipT : matmul3 (transpose3 flipArr) (transpose3 flipArr) = id3 := by
  simp only [flipArr, transpose3, matmul3, mulVecLeft, id3]
  ext <;> norm_num

/-- A conjugated flip squares to the identity whenever the three factors
satisfy the inverse relations. -/
theorem conj_flip_sq (H F T : Mat3) (hTH : matmul3 T H = id3)
    (hHT : matmul3 H T = id3) (hFF : matmul3 F F = id3) :
    matmul3 (matmul3 (matmul3 H F) T) (matmul3 (matmul3 H F) T) = id3 := by
  simp only [matmul3_assoc]
  rw [← matmul3_assoc T H, hTH, matmul3_id3_left]
  rw [← matmul3_assoc F F, hFF, matmul3_id3_left, hHT]

/-- The reflection matrix constructed by `mirror(other, axis, center)`:
`flip` directly when the normalized axis is (anti)parallel to `UP`,
otherwise rotate-to-`Z` · flip · rotate-back, each factor transposed as in
the source. -/
def mirrorMatrix (axis : Vec3) : Mat3 :=
  let a := normalize3 axis
  let dt := dot3 UPv a
  if dt = 1 ∨ dt = -1 then flipArr
  else
    let angle := Real.arccos dt
    let w := normalize3 (cross3 UPv a)
    matmul3
      (matmul3
        (transpose3 (rodArr w.x w.y w.z (Real.sin angle) (Real.cos angle)))
        (transpose3 flipArr))
      (transpose3 (rodArr w.x w.y w.z (Real.sin (-angle)) (Real.cos (-angle))))

/-- `mirror(other, axis, center)` from the source: both branches evaluate
`other` at `np.dot(p - center, matrix) + center`. -/
def mirror (other : Vec3 → ℝ) (axis : Vec3) (center : Vec3) : Vec3 → ℝ :=
  fun p => other (mulVecLeft (p - center) (mirrorMatrix axis) + center)

theorem mirrorMatrix_sq (axis : Vec3) (h : axis ≠ 0) :
    matmul3 (mirrorMatrix axis) (mirrorMatrix axis) = id3 := by
  simp only [mirrorMatrix]
  by_cases hd : dot3 UPv (normalize3 axis) = 1 ∨ dot3 UPv (normalize3 axis) = -1
  · simp only [hd, if_true]
    simp only [flipArr, matmul3, mulVecLeft, id3]
    ext <;> norm_num
  · simp only [hd, if_false]
    have ha := normalize3_sumsq h
    have hz : dot3 UPv (normalize3 axis) = (normalize3 axis).z := by
      simp [dot3, UPv, Zv]
    push_neg at hd
    have hxy : 0 < (normalize3 axis).x ^ 2 + (normalize3 axis).y ^ 2 := by
      rcases lt_or_eq_of_le (by positivity :
          (0:ℝ) ≤ (normalize3 axis).x ^ 2 + (normalize3 axis).y ^ 2) with hlt | heq
      · exact hlt
      · exfalso
        have hz2 : (normalize3 axis).z ^ 2 = 1 := by linarith
        have : ((normalize3 axis).z - 1) * ((normalize3 axis).z + 1) = 0 := by
          linear_combination hz2
        rcases mul_eq_zero.mp this with h1 | h1
        · exact hd.1 (by rw [hz]; linarith)
        · exact hd.2 (by rw [hz]; linarith)
    have hcr : cross3 UPv (normalize3 axis) ≠ 0 := by
      intro h0
      have hx0 := congrArg Vec3.x h0
      have hy0 := congrArg Vec3.y h0
      simp only [cross3, UPv, Zv, Vec3.zero_x, Vec3.zero_y] at hx0 hy0
      have hyz : (normalize3 axis).y = 0 := by linarith
      have hxz : (normalize3 axis).x = 0 := by linarith
      rw [hyz, hxz] at hxy
      norm_num at hxy
    have h1w := normalize3_sumsq hcr
    set w := normalize3 (cross3 UPv (normalize3 axis)) with hw
    set angle := Real.arccos (dot3 UPv (normalize3 axis)) with hangle
    rw [Real.sin_neg, Real.cos_neg]
    have h2 : Real.sin angle ^ 2 + Real.cos angle ^ 2 = 1 := Real.sin_sq_add_cos_sq angle
    have h2' : (-Real.sin angle) ^ 2 + Real.cos angle ^ 2 = 1 := by
      ring_nf
      ring_nf at h2
      linarith
    have hC : transpose3 (rodArr w.x w.y w.z (-Real.sin angle) (Real.cos angle)) =
        rodArr w.x w.y w.z (Real.sin angle) (Real.cos angle) := by
      rw [transpose_rodArr, neg_neg]
    apply conj_flip_sq
    · rw [hC]
      exact rod_mul_rodT w.x w.y w.z (Real.sin angle) (Real.cos angle) h1w h2
    · rw [hC]
      exact rodT_mul_rod w.x w.y w.z (Real.sin angle) (Real.cos angle) h1w h2
    · exact flipT_mul_flipT

/-- Claim C4: for every field `A`, nonzero axis and center, applying `mirror`
twice with the same axis and center evaluates identically to `A` at every
point. -/
theorem mirror_involution (other : Vec3 → ℝ) (axis center : Vec3)
    (h : axis ≠ 0) (p : Vec3) :
    mirror (mirror other axis center) axis center p = other p := by
  have hM := mirrorMatrix_sq axis h
  simp only [mirror]
  congr 1
  have hc : mulVecLeft (p - center) (mirrorMatrix axis) + center - center =
      mulVecLeft (p - center) (mirrorMatrix axis) := by
    ext <;> simp
  rw [hc, mulVecLeft_mulVecLeft, hM, mulVecLeft_id3]
  ext <;> simp

/-- Witness for C4 with axis `Z`, center the origin, field `p ↦ p.x`, at the
point `(1, 2, 3)`. -/
theorem mirror_involution_witness :
    Zv ≠ (0 : Vec3) ∧
    mirror (mirror (fun q => q.x) Zv ORIGINv) Zv ORIGINv ⟨1, 2, 3⟩ = (1 : ℝ) := by
  have hz : Zv ≠ (0 : Vec3) := by
    intro h
    have := congrArg Vec3.z h
    simp [Zv] at this
  exact ⟨hz, mirror_involution (fun q => q.x) Zv ORIGINv hz ⟨1, 2, 3⟩⟩

-- C5: circular_array rotation invariance

/-- `np.arctan2(y, x)`: the angle of the point `(x, y)`, in `(-pi, pi]`. -/
def atan2 (y x : ℝ) : ℝ :=
  if 0 < x then Real.arctan (y / x)
  else if x < 0 then
    (if 0 ≤ y then Real.arctan (y / x) + Real.pi else Real.arctan (y / x) - Real.pi)
  else if 0 < y then Real.pi / 2
  else if y < 0 then -(Real.pi / 2)
  else 0

/-- The `numpy` / Python floor-mod `a % b`. -/
def pymod (a b : ℝ) : ℝ := a - b * (Int.floor (a / b) : ℝ)

theorem pymod_add_int_mul (a b : ℝ) (hb : b ≠ 0) (m : ℤ) :
    pymod (a + (m : ℝ) * b) b = pymod a b := by
  simp only [pymod]
  have hdiv : (a + (m : ℝ) * b) / b = a / b + (m : ℝ) := by
    field_simp
  rw [hdiv, Int.floor_add_int]
  push_cast
  ring

/-- On a nonzero point, `cos` and `sin` of `atan2 y x` recover the
direction `(x, y) / r`. -/
theorem atan2_cos_sin (y x : ℝ) (h : ¬(x = 0 ∧ y = 0)) :
    Real.cos (atan2 y x) = x / Real.sqrt (x ^ 2 + y ^ 2) ∧
    Real.sin (atan2 y x) = y / Real.sqrt (x ^ 2 + y ^ 2) := by
  have hrs : (0 : ℝ) ≤ x ^ 2 + y ^ 2 := by positivity
  by_cases hx : 0 < x
  · have hr : 0 < Real.sqrt (x ^ 2 + y ^ 2) := Real.sqrt_pos.mpr (by nlinarith)
    have hxne : x ≠ 0 := hx.ne'
    have hkey : Real.sqrt (1 + (y / x) ^ 2) = Real.sqrt (x ^ 2 + y ^ 2) / x := by
      have h1 : 1 + (y / x) ^ 2 = (x ^ 2 + y ^ 2) / x ^ 2 := by
        field_simp
      rw [h1, Real.sqrt_div hrs, Real.sqrt_sq hx.le]
    simp only [atan2, hx, if_true, Real.cos_arctan, Real.sin_arctan, hkey]
    constructor
    · rw [one_div_div]
    · field_simp
  · by_cases hx' : x < 0
    · have hr : 0 < Real.sqrt (x ^ 2 + y ^ 2) := Real.sqrt_pos.mpr (by nlinarith)
      have hxne : x ≠ 0 := hx'.ne
      have hkey : Real.sqrt (1 + (y / x) ^ 2) = Real.sqrt (x ^ 2 + y ^ 2) / (-x) := by
        have h1 : 1 + (y / x) ^ 2 = (x ^ 2 + y ^ 2) / x ^ 2 := by
          field_simp
        rw [h1, Real.sqrt_div hrs, Real.sqrt_sq_eq_abs, abs_of_neg hx']
      by_cases hy : 0 ≤ y
      · simp only [atan2, hx, if_false, hx', if_true, hy, Real.cos_add_pi,
          Real.sin_add_pi, Real.cos_arctan, Real.sin_arctan, hkey]
        constructor
        · rw [one_div_div]
          field_simp
        · field_simp
          ring
      · simp only [atan2, hx, if_false, hx', if_true, hy, Real.cos_sub_pi,
          Real.sin_sub_pi, Real.cos_arctan, Real.sin_arctan, hkey]
        constructor
        · rw [one_div_div]
          field_simp
        · field_simp
          ring
    · have hx0 : x = 0 := le_antisymm (not_lt.mp hx) (not_lt.mp hx')
      have hy0 : y ≠ 0 := by
        intro hy
        exact h ⟨hx0, hy⟩
      subst hx0
      by_cases hy : 0 < y
      · have hsq : Real.sqrt ((0:ℝ) ^ 2 + y ^ 2) = y := by
          rw [show (0:ℝ) ^ 2 + y ^ 2 = y ^ 2 by ring, Real.sqrt_sq hy.le]
        simp only [atan2, lt_irrefl, if_false, hy, if_true, Real.cos_pi_div_two,
          Real.sin_pi_div_two, hsq]
        constructor
        · simp
        · field_simp
      · have hy' : y < 0 := lt_of_le_of_ne (not_lt.mp hy) hy0
        have hsq : Real.sqrt ((0:ℝ) ^ 2 + y ^ 2) = -y := by
          rw [show (0:ℝ) ^ 2 + y ^ 2 = y ^ 2 by ring, Real.sqrt_sq_eq_abs,
            abs_of_neg hy']
        simp only [atan2, lt_irrefl, if_false, hy, hy', if_true, Real.cos_neg,
          Real.sin_neg, Real.cos_pi_div_two, Real.sin_pi_div_two, hsq]
        constructor
        · simp
        · field_simp

/-- Rotating a nonzero point by `da` about the origin shifts its `atan2`
angle by `da`, up to a multiple of `2 * pi`. -/
theorem atan2_rot (x y da : ℝ) (h : ¬(x = 0 ∧ y = 0)) :
    ∃ k : ℤ,
      atan2 (x * Real.sin da + y * Real.cos da) (x * Real.cos da - y * Real.sin da) -
        (atan2 y x + da) = 2 * Real.pi * (k : ℝ) := by
  have hsc := Real.sin_sq_add_cos_sq da
  have hsum : (x * Real.cos da - y * Real.sin da) ^ 2 +
      (x * Real.sin da + y * Real.cos da) ^ 2 = x ^ 2 + y ^ 2 := by
    linear_combination (x ^ 2 + y ^ 2) * hsc
  have hpos : 0 < x ^ 2 + y ^ 2 := by
    rcases lt_or_eq_of_le (by positivity : (0:ℝ) ≤ x ^ 2 + y ^ 2) with hlt | heq
    · exact hlt
    · exfalso
      exact h ⟨by nlinarith [sq_nonneg x, sq_nonneg y], by nlinarith [sq_nonneg x, sq_nonneg y]⟩
  have h' : ¬(x * Real.cos da - y * Real.sin da = 0 ∧
      x * Real.sin da + y * Real.cos da = 0) := by
    rintro ⟨h1, h2⟩
    rw [h1, h2] at hsum
    nlinarith
  obtain ⟨hc1, hs1⟩ := atan2_cos_sin y x h
  obtain ⟨hc2, hs2⟩ := atan2_cos_sin (x * Real.sin da + y * Real.cos da)
    (x * Real.cos da - y * Real.sin da) h'
  rw [hsum] at hc2 hs2
  have hrne : Real.sqrt (x ^ 2 + y ^ 2) ≠ 0 := (Real.sqrt_pos.mpr hpos).ne'
  have Hcos : Real.cos (atan2 (x * Real.sin da + y * Real.cos da)
      (x * Real.cos da - y * Real.sin da)) = Real.cos (atan2 y x + da) := by
    rw [hc2, Real.cos_add, hc1, hs1]
    field_simp
  have Hsin : Real.sin (atan2 (x * Real.sin da + y * Real.cos da)
      (x * Real.cos da - y * Real.sin da)) = Real.sin (atan2 y x + da) := by
    rw [hs2, Real.sin_add, hc1, hs1]
    field_simp
    ring
  have hangle := Real.Angle.cos_sin_inj Hcos Hsin
  obtain ⟨k, hk⟩ := Real.Angle.angle_eq_iff_two_pi_dvd_sub.mp hangle
  exact ⟨k, by linarith [hk]⟩

/-- `circular_array(other, count, offset)` from the source: translate by
`X * offset`, fold the azimuthal angle to one cell of width `2*pi/count`,
evaluate the two nearest copies and take the minimum. -/
def circular_array (other : Vec3 → ℝ) (count : ℕ) (offset : ℝ) : Vec3 → ℝ :=
  let other2 := translate other (rsmul offset Xv)
  let da := 2 * Real.pi / (count : ℝ)
  fun p =>
    let d := Real.sqrt (p.x ^ 2 + p.y ^ 2)
    let a := pymod (atan2 p.y p.x) da
    min (other2 ⟨Real.cos (a - da) * d, Real.sin (a - da) * d, p.z⟩)
        (other2 ⟨Real.cos a * d, Real.sin a * d, p.z⟩)

/-- Mathematical rotation of a point about the `z` axis, used to state
claim C5. -/
def rotZ (t : ℝ) (p : Vec3) : Vec3 :=
  ⟨p.x * Real.cos t - p.y * Real.sin t, p.x * Real.sin t + p.y * Real.cos t, p.z⟩

/-- Claim C5: for every field `A`, every count `n ≥ 1` and every point `p`,
`circular_array(A, n)` evaluated at `p` and at `p` rotated by `2*pi/n`
about the `z` axis yields equal distances. -/
theorem circular_array_rotation (other : Vec3 → ℝ) (n : ℕ) (hn : 1 ≤ n) (p : Vec3) :
    circular_array other n 0 (rotZ (2 * Real.pi / (n : ℝ)) p) =
      circular_array other n 0 p := by
  by_cases h0 : p.x = 0 ∧ p.y = 0
  · have hp : rotZ (2 * Real.pi / (n : ℝ)) p = p := by
      ext <;> simp [rotZ, h0.1, h0.2]
    rw [hp]
  · have hnpos : (0 : ℝ) < (n : ℝ) := by
      have : (1 : ℝ) ≤ (n : ℝ) := by exact_mod_cast hn
      linarith
    have hdane : 2 * Real.pi / (n : ℝ) ≠ 0 := by
      have := Real.pi_pos
      positivity
    have h2p : 2 * Real.pi = (n : ℝ) * (2 * Real.pi / (n : ℝ)) := by
      field_simp
    have hsc := Real.sin_sq_add_cos_sq (2 * Real.pi / (n : ℝ))
    have hd : Real.sqrt ((rotZ (2 * Real.pi / (n : ℝ)) p).x ^ 2 +
        (rotZ (2 * Real.pi / (n : ℝ)) p).y ^ 2) = Real.sqrt (p.x ^ 2 + p.y ^ 2) := by
      congr 1
      simp only [rotZ]
      linear_combination (p.x ^ 2 + p.y ^ 2) * hsc
    obtain ⟨k, hk⟩ := atan2_rot p.x p.y (2 * Real.pi / (n : ℝ)) h0
    have hshift : atan2 (rotZ (2 * Real.pi / (n : ℝ)) p).y
        (rotZ (2 * Real.pi / (n : ℝ)) p).x =
        atan2 p.y p.x + ((1 + k * (n : ℤ) : ℤ) : ℝ) * (2 * Real.pi / (n : ℝ)) := by
      have h3 : 2 * Real.pi * (k : ℝ) = (n : ℝ) * (2 * Real.pi / (n : ℝ)) * (k : ℝ) := by
        rw [← h2p]
      push_cast
      show atan2 (p.x * Real.sin (2 * Real.pi / (n : ℝ)) + p.y * Real.cos (2 * Real.pi / (n : ℝ)))
          (p.x * Real.cos (2 * Real.pi / (n : ℝ)) - p.y * Real.sin (2 * Real.pi / (n : ℝ))) = _
      nlinarith [hk, h3]
    have ha : pymod (atan2 (rotZ (2 * Real.pi / (n : ℝ)) p).y
        (rotZ (2 * Real.pi / (n : ℝ)) p).x) (2 * Real.pi / (n : ℝ)) =
        pymod (atan2 p.y p.x) (2 * Real.pi / (n : ℝ)) := by
      rw [hshift]
      exact pymod_add_int_mul (atan2 p.y p.x) (2 * Real.pi / (n : ℝ)) hdane (1 + k * (n : ℤ))
    simp only [circular_array]
    rw [hd, ha]
    simp only [rotZ]

/-- Witness for C5 at `n = 1`, the zero field, and the point `(1, 0, 0)`. -/
theorem circular_array_rotation_witness :
    1 ≤ 1 ∧
    circular_array (fun _ => (0 : ℝ)) 1 0 (rotZ (2 * Real.pi / ((1 : ℕ) : ℝ)) ⟨1, 0, 0⟩) =
      circular_array (fun _ => (0 : ℝ)) 1 0 ⟨1, 0, 0⟩ :=
  ⟨le_refl 1, circular_array_rotation (fun _ => (0 : ℝ)) 1 (le_refl 1) ⟨1, 0, 0⟩⟩

-- C7: dodecahedron / icosahedron radius handling

/-- `dodecahedron(r)` from the source: `x, y, z = _normalize(((1+sqrt 5)/2, 1, 0))`,
`p = np.abs(p / r)`, support dots against the three cyclic permutations, and
`(max(max(a, b), c) - x) * r`. No pre-scaling of `r` is applied. -/
def dodecahedron (r : ℝ) : Vec3 → ℝ :=
  let n := normalize3 ⟨(1 + Real.sqrt 5) / 2, 1, 0⟩
  fun p =>
    let q := vabs (rdiv p r)
    let a := dot3 q ⟨n.x, n.y, n.z⟩
    let b := dot3 q ⟨n.z, n.x, n.y⟩
    let c := dot3 q ⟨n.y, n.z, n.x⟩
    (max (max a b) c - n.x) * r

/-- `icosahedron(r)` from the source: the radius is first multiplied by the
decimal constant `0.8506507174597755`, then the same support-function scheme
is evaluated with normals from `_normalize(((sqrt 5 + 3)/2, 1, 0))` and
`w = sqrt 3 / 3`. -/
def icosahedron (r : ℝ) : Vec3 → ℝ :=
  let r2 := r * 0.8506507174597755
  let n := normalize3 ⟨(Real.sqrt 5 + 3) / 2, 1, 0⟩
  let w := Real.sqrt 3 / 3
  fun p =>
    let q := vabs (rdiv p r2)
    let a := dot3 q ⟨n.x, n.y, n.z⟩
    let b := dot3 q ⟨n.z, n.x, n.y⟩
    let c := dot3 q ⟨n.y, n.z, n.x⟩
    let d := dot3 q ⟨w, w, w⟩ - n.x
    (max (max (max a b) c - n.x) d) * r2

/-- Unit direction of a dodecahedron vertex: `(1, 1, 1) / sqrt 3`. -/
def dodecaVertexDir : Vec3 :=
  ⟨1 / Real.sqrt 3, 1 / Real.sqrt 3, 1 / Real.sqrt 3⟩

/-- Unit direction of an icosahedron vertex: `(0, 1, phi)` normalized, where
`phi` is the golden ratio (`1 + phi^2 = (5 + sqrt 5)/2`). -/
def icoVertexDir : Vec3 :=
  ⟨0, 1 / Real.sqrt ((5 + Real.sqrt 5) / 2),
    ((1 + Real.sqrt 5) / 2) / Real.sqrt ((5 + Real.sqrt 5) / 2)⟩

theorem s5_sq : Real.sqrt 5 ^ 2 = 5 := Real.sq_sqrt (by norm_num)

theorem s5_lb : 2.2360679 < Real.sqrt 5 := by
  nlinarith [s5_sq, Real.sqrt_nonneg 5]

theorem s5_ub : Real.sqrt 5 < 2.2360680 := by
  nlinarith [s5_sq, Real.sqrt_nonneg 5]

theorem s3_sq : Real.sqrt 3 ^ 2 = 3 := Real.sq_sqrt (by norm_num)

theorem s3_lb : 1.7 < Real.sqrt 3 := by
  nlinarith [s3_sq, Real.sqrt_nonneg 3]

theorem s3_pos : 0 < Real.sqrt 3 := by linarith [s3_lb]

theorem nu_sq : Real.sqrt ((5 + Real.sqrt 5) / 2) ^ 2 = (5 + Real.sqrt 5) / 2 :=
  Real.sq_sqrt (by positivity)

theorem nu_pos : 0 < Real.sqrt ((5 + Real.sqrt 5) / 2) := by
  apply Real.sqrt_pos.mpr
  positivity

theorem nu_lb : 1.9021130 < Real.sqrt ((5 + Real.sqrt 5) / 2) := by
  nlinarith [nu_sq, nu_pos, s5_lb]

theorem nu_ub : Real.sqrt ((5 + Real.sqrt 5) / 2) < 1.9021131 := by
  nlinarith [nu_sq, nu_pos, s5_ub]

/-- The norm of the dodecahedron normal seed `((1+sqrt 5)/2, 1, 0)`. -/
theorem dodeca_seed_norm :
    norm3 ⟨(1 + Real.sqrt 5) / 2, 1, 0⟩ = Real.sqrt ((5 + Real.sqrt 5) / 2) := by
  unfold norm3
  congr 1
  nlinarith [s5_sq]

theorem dodecaVertexDir_norm (r : ℝ) (hr : 0 ≤ r) :
    norm3 (rsmul r dodecaVertexDir) = r := by
  unfold norm3 rsmul dodecaVertexDir
  have hsum : (r * (1 / Real.sqrt 3)) ^ 2 + (r * (1 / Real.sqrt 3)) ^ 2 +
      (r * (1 / Real.sqrt 3)) ^ 2 = r ^ 2 := by
    have h1 : (r * (1 / Real.sqrt 3)) ^ 2 = r ^ 2 / 3 := by
      rw [mul_pow, div_pow, one_pow, s3_sq]
      ring
    rw [h1]
    ring
  rw [hsum]
  exact Real.sqrt_sq hr

/-- At a vertex direction scaled to distance `r`, the dodecahedron field is
strictly negative: `r` is not the circumradius. -/
theorem dodecahedron_vertex_neg (r : ℝ) (hr : 0 < r) :
    dodecahedron r (rsmul r dodecaVertexDir) < 0 := by
  simp only [dodecahedron, dodecaVertexDir]
  have hrne : r ≠ 0 := hr.ne'
  have h3ne : Real.sqrt 3 ≠ 0 := s3_pos.ne'
  have hq : vabs (rdiv (rsmul r ⟨1 / Real.sqrt 3, 1 / Real.sqrt 3, 1 / Real.sqrt 3⟩) r) =
      ⟨1 / Real.sqrt 3, 1 / Real.sqrt 3, 1 / Real.sqrt 3⟩ := by
    simp only [vabs, rdiv, rsmul]
    have hcomp : r * (1 / Real.sqrt 3) / r = 1 / Real.sqrt 3 := by
      field_simp
      ring
    rw [hcomp]
    have habs : |1 / Real.sqrt 3| = 1 / Real.sqrt 3 :=
      abs_of_pos (by positivity)
    ext <;> simp [habs]
  rw [hq]
  have hnn := normalize3_sumsq (v := ⟨(1 + Real.sqrt 5) / 2, 1, 0⟩) (by
    intro hcon
    have := congrArg Vec3.y hcon
    simp at this)
  have hn : normalize3 ⟨(1 + Real.sqrt 5) / 2, 1, 0⟩ =
      ⟨((1 + Real.sqrt 5) / 2) / Real.sqrt ((5 + Real.sqrt 5) / 2),
        1 / Real.sqrt ((5 + Real.sqrt 5) / 2), 0⟩ := by
    simp only [normalize3, rdiv, dodeca_seed_norm]
    ext <;> simp
  rw [hn]
  simp only [dot3]
  set s3 := Real.sqrt 3 with hs3def
  set nu := Real.sqrt ((5 + Real.sqrt 5) / 2) with hnudef
  set ph := (1 + Real.sqrt 5) / 2 with hphdef
  have hb : 1 / s3 * 0 + 1 / s3 * (ph / nu) + 1 / s3 * (1 / nu) =
      1 / s3 * (ph / nu) + 1 / s3 * (1 / nu) + 1 / s3 * 0 := by ring
  have hc : 1 / s3 * (1 / nu) + 1 / s3 * 0 + 1 / s3 * (ph / nu) =
      1 / s3 * (ph / nu) + 1 / s3 * (1 / nu) + 1 / s3 * 0 := by ring
  rw [hb, hc, max_self, max_self]
  apply mul_neg_of_neg_of_pos _ hr
  have hnu_pos : 0 < nu := nu_pos
  have hs3_lb : 1.7 < s3 := s3_lb
  have hph_lb : 1.61 < ph := by
    rw [hphdef]
    nlinarith [s5_lb]
  have hph_ub : ph < 1.62 := by
    rw [hphdef]
    nlinarith [s5_ub]
  have hkey : ph + 1 < s3 * ph := by nlinarith
  have hexp : 1 / s3 * (ph / nu) + 1 / s3 * (1 / nu) + 1 / s3 * 0 - ph / nu =
      ((ph + 1) - s3 * ph) / (s3 * nu) := by
    field_simp
    ring
  rw [hexp]
  apply div_neg_of_neg_of_pos
  · linarith
  · positivity

/-- Counterexample to claim C7 as stated: at `r = 1` the point
`(1,1,1)/sqrt 3` lies at distance `1` from the origin in the direction of a
dodecahedron vertex, yet `dodecahedron 1` evaluates there to a strictly
negative value, not zero — `dodecahedron` applies no radius correction. -/
theorem dodecahedron_vertex_not_zero :
    norm3 (rsmul 1 dodecaVertexDir) = 1 ∧
    dodecahedron 1 (rsmul 1 dodecaVertexDir) < 0 :=
  ⟨dodecaVertexDir_norm 1 (by norm_num), dodecahedron_vertex_neg 1 (by norm_num)⟩

theorem phi_sq_golden :
    ((1 + Real.sqrt 5) / 2) ^ 2 = (1 + Real.sqrt 5) / 2 + 1 := by
  linear_combination (1 / 4 : ℝ) * s5_sq

theorem ico_seed_eq : (Real.sqrt 5 + 3) / 2 = ((1 + Real.sqrt 5) / 2) ^ 2 := by
  linear_combination (-(1 : ℝ) / 4) * s5_sq

/-- The norm of the icosahedron normal seed `((sqrt 5 + 3)/2, 1, 0)`. -/
theorem ico_seed_norm :
    norm3 ⟨(Real.sqrt 5 + 3) / 2, 1, 0⟩ = Real.sqrt 3 * ((1 + Real.sqrt 5) / 2) := by
  unfold norm3
  rw [show ((Real.sqrt 5 + 3) / 2) ^ 2 + 1 ^ 2 + 0 ^ 2 =
      3 * ((1 + Real.sqrt 5) / 2) ^ 2 from by linear_combination (-(1 : ℝ) / 2) * s5_sq]
  rw [Real.sqrt_mul (by norm_num : (0:ℝ) ≤ 3)]
  rw [Real.sqrt_sq (by positivity)]

theorem icoVertexDir_norm (r : ℝ) (hr : 0 ≤ r) :
    norm3 (rsmul r icoVertexDir) = r := by
  unfold norm3 rsmul icoVertexDir
  have hνne : Real.sqrt ((5 + Real.sqrt 5) / 2) ≠ 0 := nu_pos.ne'
  have hν2 := nu_sq
  have hsum : (r * 0) ^ 2 + (r * (1 / Real.sqrt ((5 + Real.sqrt 5) / 2))) ^ 2 +
      (r * (((1 + Real.sqrt 5) / 2) / Real.sqrt ((5 + Real.sqrt 5) / 2))) ^ 2 = r ^ 2 := by
    have hid : 1 + ((1 + Real.sqrt 5) / 2) ^ 2 = Real.sqrt ((5 + Real.sqrt 5) / 2) ^ 2 := by
      rw [nu_sq]
      linear_combination (1 / 4 : ℝ) * s5_sq
    have expand : (r * 0) ^ 2 + (r * (1 / Real.sqrt ((5 + Real.sqrt 5) / 2))) ^ 2 +
        (r * (((1 + Real.sqrt 5) / 2) / Real.sqrt ((5 + Real.sqrt 5) / 2))) ^ 2 =
        r ^ 2 * ((1 + ((1 + Real.sqrt 5) / 2) ^ 2) / Real.sqrt ((5 + Real.sqrt 5) / 2) ^ 2) := by
      ring
    rw [expand, hid, div_self (pow_ne_zero 2 hνne)]
    ring
  rw [hsum]
  exact Real.sqrt_sq hr

/-- Pure algebra behind the icosahedron vertex evaluation: the support dots
collapse so that the field value at the vertex direction is
`(phi^2 / nu - phi * k) / sqrt 3 * r`. -/
theorem ico_support_eval (g ph s3 nv kv r : ℝ)
    (hg : g = ph ^ 2) (hph1 : ph ^ 2 = ph + 1) (hph : 1.6 < ph)
    (hs3 : s3 ^ 2 = 3) (hs3p : 0 < s3) (hnv : 0 < nv) (hkv : 0 < kv) :
    (max (max (max (0 * (g / (s3 * ph)) + 1 / (nv * kv) * (1 / (s3 * ph)) +
          ph / (nv * kv) * 0)
        (0 * 0 + 1 / (nv * kv) * (g / (s3 * ph)) + ph / (nv * kv) * (1 / (s3 * ph))))
        (0 * (1 / (s3 * ph)) + 1 / (nv * kv) * 0 + ph / (nv * kv) * (g / (s3 * ph))) -
        g / (s3 * ph))
      (0 * (s3 / 3) + 1 / (nv * kv) * (s3 / 3) + ph / (nv * kv) * (s3 / 3) -
        g / (s3 * ph))) * (r * kv) =
    (ph ^ 2 / nv - ph * kv) / s3 * r := by
  have hphp : (0:ℝ) < ph := by linarith
  have hphne : ph ≠ 0 := hphp.ne'
  have hs3ne : s3 ≠ 0 := hs3p.ne'
  have hnvne : nv ≠ 0 := hnv.ne'
  have hkvne : kv ≠ 0 := hkv.ne'
  have eb : 0 * 0 + 1 / (nv * kv) * (g / (s3 * ph)) + ph / (nv * kv) * (1 / (s3 * ph)) =
      (ph + 1) / (s3 * (nv * kv)) := by
    rw [hg, hph1]
    field_simp
    linear_combination (-(s3 * nv * kv)) * hph1
  have ec : 0 * (1 / (s3 * ph)) + 1 / (nv * kv) * 0 + ph / (nv * kv) * (g / (s3 * ph)) =
      (ph + 1) / (s3 * (nv * kv)) := by
    rw [hg, hph1]
    field_simp
    ring
  have ed : 0 * (s3 / 3) + 1 / (nv * kv) * (s3 / 3) + ph / (nv * kv) * (s3 / 3) =
      (ph + 1) / (s3 * (nv * kv)) := by
    field_simp
    linear_combination (1 + ph) * nv * kv * hs3
  have enx : g / (s3 * ph) = ph / s3 := by
    rw [hg]
    field_simp
    ring
  have ea : 0 * (g / (s3 * ph)) + 1 / (nv * kv) * (1 / (s3 * ph)) + ph / (nv * kv) * 0 ≤
      (ph + 1) / (s3 * (nv * kv)) := by
    have hdiff : (ph + 1) / (s3 * (nv * kv)) -
        (0 * (g / (s3 * ph)) + 1 / (nv * kv) * (1 / (s3 * ph)) + ph / (nv * kv) * 0) =
        (ph * (ph + 1) - 1) / (s3 * ph * (nv * kv)) := by
      field_simp
      ring
    have hpos : 0 < (ph * (ph + 1) - 1) / (s3 * ph * (nv * kv)) := by
      apply div_pos
      · nlinarith
      · positivity
    linarith
  rw [eb, ec, ed, max_eq_right ea, max_self, max_self, enx]
  rw [hph1]
  field_simp
  ring

/-- The icosahedron pre-scale constant is only a decimal approximation of the
exact vertex correction: the residual gap, divided by `sqrt 3`, is at most
`1e-6` in magnitude. -/
theorem ico_gap_bound :
    |(((1 + Real.sqrt 5) / 2) ^ 2 / Real.sqrt ((5 + Real.sqrt 5) / 2) -
        ((1 + Real.sqrt 5) / 2) * 0.8506507174597755) / Real.sqrt 3| ≤ 1e-6 := by
  have hph_lb : (1.61803395 : ℝ) < (1 + Real.sqrt 5) / 2 := by linarith [s5_lb]
  have hph_ub : (1 + Real.sqrt 5) / 2 < 1.6180340 := by linarith [s5_ub]
  have h1 : ((1 + Real.sqrt 5) / 2) ^ 2 / Real.sqrt ((5 + Real.sqrt 5) / 2) ≤ 1.3763822 := by
    rw [div_le_iff₀ nu_pos]
    nlinarith [nu_lb, hph_lb, hph_ub]
  have h1b : (1.3763815 : ℝ) ≤ ((1 + Real.sqrt 5) / 2) ^ 2 / Real.sqrt ((5 + Real.sqrt 5) / 2) := by
    rw [le_div_iff₀ nu_pos]
    nlinarith [nu_ub, nu_pos, hph_lb, hph_ub]
  have h2 : (1.3763816 : ℝ) ≤ ((1 + Real.sqrt 5) / 2) * 0.8506507174597755 := by
    nlinarith [hph_lb]
  have h2b : ((1 + Real.sqrt 5) / 2) * 0.8506507174597755 ≤ 1.3763819 := by
    nlinarith [hph_ub]
  have hD : |((1 + Real.sqrt 5) / 2) ^ 2 / Real.sqrt ((5 + Real.sqrt 5) / 2) -
      ((1 + Real.sqrt 5) / 2) * 0.8506507174597755| ≤ 1e-6 := by
    rw [abs_le]
    constructor <;> linarith
  rw [abs_div, abs_of_pos s3_pos]
  calc |((1 + Real.sqrt 5) / 2) ^ 2 / Real.sqrt ((5 + Real.sqrt 5) / 2) -
        ((1 + Real.sqrt 5) / 2) * 0.8506507174597755| / Real.sqrt 3 ≤
      |((1 + Real.sqrt 5) / 2) ^ 2 / Real.sqrt ((5 + Real.sqrt 5) / 2) -
        ((1 + Real.sqrt 5) / 2) * 0.8506507174597755| :=
        div_le_self (abs_nonneg _) (by linarith [s3_lb])
    _ ≤ 1e-6 := hD

/-- At the icosahedron vertex direction scaled to distance `r`, the field
value is within `1e-6 * r` of zero (the pre-scale constant is a decimal
approximation of the exact correction). -/
theorem icosahedron_vertex_small (r : ℝ) (hr : 0 < r) :
    |icosahedron r (rsmul r icoVertexDir)| ≤ 1e-6 * r := by
  simp only [icosahedron, icoVertexDir]
  have hrne : r ≠ 0 := hr.ne'
  have hνne : Real.sqrt ((5 + Real.sqrt 5) / 2) ≠ 0 := nu_pos.ne'
  have hq : vabs (rdiv (rsmul r ⟨0, 1 / Real.sqrt ((5 + Real.sqrt 5) / 2),
      ((1 + Real.sqrt 5) / 2) / Real.sqrt ((5 + Real.sqrt 5) / 2)⟩)
      (r * 0.8506507174597755)) =
      ⟨0, 1 / (Real.sqrt ((5 + Real.sqrt 5) / 2) * 0.8506507174597755),
        (1 + Real.sqrt 5) / 2 / (Real.sqrt ((5 + Real.sqrt 5) / 2) * 0.8506507174597755)⟩ := by
    simp only [vabs, rdiv, rsmul]
    have hy : r * (1 / Real.sqrt ((5 + Real.sqrt 5) / 2)) / (r * 0.8506507174597755) =
        1 / (Real.sqrt ((5 + Real.sqrt 5) / 2) * 0.8506507174597755) := by
      field_simp
      ring
    have hz : r * ((1 + Real.sqrt 5) / 2 / Real.sqrt ((5 + Real.sqrt 5) / 2)) /
        (r * 0.8506507174597755) =
        (1 + Real.sqrt 5) / 2 / (Real.sqrt ((5 + Real.sqrt 5) / 2) * 0.8506507174597755) := by
      field_simp
      ring
    rw [hy, hz]
    have hay : |1 / (Real.sqrt ((5 + Real.sqrt 5) / 2) * 0.8506507174597755)| =
        1 / (Real.sqrt ((5 + Real.sqrt 5) / 2) * 0.8506507174597755) :=
      abs_of_pos (by positivity)
    have haz : |(1 + Real.sqrt 5) / 2 / (Real.sqrt ((5 + Real.sqrt 5) / 2) * 0.8506507174597755)| =
        (1 + Real.sqrt 5) / 2 / (Real.sqrt ((5 + Real.sqrt 5) / 2) * 0.8506507174597755) :=
      abs_of_pos (by positivity)
    ext
    · simp
    · exact hay
    · exact haz
  have hn : normalize3 ⟨(Real.sqrt 5 + 3) / 2, 1, 0⟩ =
      ⟨(Real.sqrt 5 + 3) / 2 / (Real.sqrt 3 * ((1 + Real.sqrt 5) / 2)),
        1 / (Real.sqrt 3 * ((1 + Real.sqrt 5) / 2)), 0⟩ := by
    simp only [normalize3, rdiv, ico_seed_norm]
    ext <;> simp
  rw [hq, hn]
  simp only [dot3]
  rw [ico_support_eval ((Real.sqrt 5 + 3) / 2) ((1 + Real.sqrt 5) / 2) (Real.sqrt 3)
    (Real.sqrt ((5 + Real.sqrt 5) / 2)) 0.8506507174597755 r ico_seed_eq phi_sq_golden
    (by nlinarith [s5_lb]) s3_sq s3_pos nu_pos (by norm_num)]
  rw [abs_mul, abs_of_pos hr]
  exact mul_le_mul_of_nonneg_right ico_gap_bound hr.le

/-- Claim C7 (amended): `icosahedron(r)` pre-scales its radius by the decimal
constant `0.8506507174597755`, so at a vertex point at distance `r` the field
evaluates to within `1e-6 * r` of zero (the constant is a decimal
approximation of the exact correction, so the value is not exactly zero);
`dodecahedron(r)` applies no pre-scale, and at a vertex point at distance `r`
it evaluates to a strictly negative value, so its radius parameter is not the
circumradius. -/
theorem platonic_radius_correction (r : ℝ) (hr : 0 < r) :
    norm3 (rsmul r icoVertexDir) = r ∧
    |icosahedron r (rsmul r icoVertexDir)| ≤ 1e-6 * r ∧
    norm3 (rsmul r dodecaVertexDir) = r ∧
    dodecahedron r (rsmul r dodecaVertexDir) < 0 :=
  ⟨icoVertexDir_norm r hr.le, icosahedron_vertex_small r hr,
   dodecaVertexDir_norm r hr.le, dodecahedron_vertex_neg r hr⟩

/-- Witness for the amended C7 at `r = 1`. -/
theorem platonic_radius_correction_witness :
    (0 : ℝ) < 1 ∧
    (norm3 (rsmul 1 icoVertexDir) = 1 ∧
      |icosahedron 1 (rsmul 1 icoVertexDir)| ≤ 1e-6 * 1 ∧
      norm3 (rsmul 1 dodecaVertexDir) = 1 ∧
      dodecahedron 1 (rsmul 1 dodecaVertexDir) < 0) :=
  ⟨by norm_num, platonic_radius_correction 1 (by norm_num)⟩

-- C2: operator registry dispatch

/-- The names registered in `_ops` by the `@op3` / `@op32` decorators and the
trailing `op3(dn.*)` assignments, in source order. -/
def opNames : List String :=
  ["translate", "scale", "skin", "rotate", "rotateD", "rotate_to", "orient",
   "mirror", "mirror_copy", "circular_array", "elongate", "twist", "bend",
   "bend_linear", "bend_radial", "transition_linear", "transition_spherical",
   "transition_sdf", "transition_radial", "transition_sigmoid",
   "transition_general", "wrap_around", "slice",
   "union", "difference", "intersection", "blend", "negate", "dilate",
   "erode", "shell", "repeat"]

/-- The failures attribute access on an `SDF3` could produce: the source's
`__getattr__` raises a plain `AttributeError` (the ordinary
attribute-not-found error); a distinct "unknown capability" error would be a
different value of this type. -/
inductive PyAttrError where
  | attributeError
  | unknownCapability (msg : String)
deriving DecidableEq

/-- `SDF3.__getattr__(self, name)` from the source: when `name` is in `_ops`
it returns `functools.partial(_ops[name], self)` — modelled as the pair of
the registry key and the bound receiver reference — otherwise it raises a
plain `AttributeError`. -/
def getattrSDF3 (self : ℕ) (name : String) : Except PyAttrError (String × ℕ) :=
  if name ∈ opNames then Except.ok (name, self)
  else Except.error PyAttrError.attributeError

/-- Counterexample to claim C2 as stated: requesting the unregistered name
`"frobnicate"` on a field fails with the ordinary `AttributeError`, not with
a distinct "unknown capability" error. -/
theorem getattr_unknown_is_plain_attribute_error :
    "frobnicate" ∉ opNames ∧
    getattrSDF3 0 "frobnicate" = Except.error PyAttrError.attributeError := by
  have h : "frobnicate" ∉ opNames := by decide
  refine ⟨h, ?_⟩
  simp [getattrSDF3, h]

/-- Claim C2 (amended): for every field reference and name, a registered name
yields the operator with the field bound as its first argument, and an
unregistered name fails with the ordinary attribute-not-found error
(`AttributeError`) — not with a distinct "unknown capability" error. -/
theorem getattr_dispatch (self : ℕ) (name : String) :
    (name ∈ opNames ∧ getattrSDF3 self name = Except.ok (name, self)) ∨
    (name ∉ opNames ∧ getattrSDF3 self name = Except.error PyAttrError.attributeError) := by
  by_cases h : name ∈ opNames
  · exact Or.inl ⟨h, by simp [getattrSDF3, h]⟩
  · exact Or.inr ⟨h, by simp [getattrSDF3, h]⟩

-- C3: the smoothing-coefficient setter mutates its receiver

/-- A Python `SDF3` object: its evaluation function `f` and its optional
smoothing-coefficient attribute `_k` (`none` = unset / `None`). -/
structure PyObj where
  f : Vec3 → ℝ
  smoothK : Option ℝ

/-- A heap of `SDF3` objects; object identity is the index into the heap. -/
abbrev ObjStore := List PyObj

def defaultPyObj : PyObj := ⟨fun _ => 0, none⟩

/-- `SDF3.k(self, k)` from the source: `self._k = k; return self` — it
overwrites the `_k` attribute of the existing object in place and returns
the same reference. -/
def setK (st : ObjStore) (self : ℕ) (v : Option ℝ) : ObjStore × ℕ :=
  (st.set self { st.getD self defaultPyObj with smoothK := v }, self)

/-- `translate` as an operator acting on the heap: it reads the receiver,
allocates a new object wrapping the remapped evaluation function, and
returns the fresh reference; it writes to no existing object. -/
def translateOp (st : ObjStore) (self : ℕ) (offset : Vec3) : ObjStore × ℕ :=
  (st ++ [⟨translate (st.getD self defaultPyObj).f offset, none⟩], st.length)

/-- A one-object heap holding a field whose `_k` is unset. -/
def exampleObjStore : ObjStore := [⟨fun p => p.x, none⟩]

/-- Counterexample to claim C3 as stated: invoking `k(1)` on a previously
constructed field changes that field's observable smoothing coefficient
(from unset to `1`): the operation mutates the existing Field. -/
theorem setK_mutates_receiver :
    ((setK exampleObjStore 0 (some 1)).1.getD 0 defaultPyObj).smoothK ≠
      (exampleObjStore.getD 0 defaultPyObj).smoothK := by
  simp [setK, exampleObjStore, defaultPyObj, List.set, List.getD]

/-- Claim C3 (amended): operator constructors such as `translate` allocate a
new field and leave every previously constructed field unchanged, but the
smoothing-coefficient setter `k` is an exception: `field.k(v)` mutates the
existing field in place (its `_k` attribute becomes `v`) and returns the
same field reference. -/
theorem fields_immutable_except_setK :
    (∀ (st : ObjStore) (self : ℕ) (offset : Vec3) (j : ℕ), j < st.length →
      (translateOp st self offset).1.getD j defaultPyObj = st.getD j defaultPyObj ∧
      (translateOp st self offset).2 = st.length) ∧
    (∀ (st : ObjStore) (self : ℕ) (v : Option ℝ), self < st.length →
      ((setK st self v).1.getD self defaultPyObj).smoothK = v ∧
      (setK st self v).2 = self) := by
  constructor
  · intro st self offset j hj
    refine ⟨?_, rfl⟩
    simp only [translateOp, List.getD_eq_getElem?_getD]
    rw [List.getElem?_append_left hj]
  · intro st self v hself
    refine ⟨?_, rfl⟩
    simp only [setK, List.getD_eq_getElem?_getD]
    rw [List.getElem?_set_eq_of_lt _ hself]
    rfl

/-- Witness for the amended C3 on the one-object heap. -/
theorem fields_immutable_except_setK_witness :
    ((0 : ℕ) < exampleObjStore.length ∧
      (translateOp exampleObjStore 0 ⟨1, 0, 0⟩).1.getD 0 defaultPyObj =
        exampleObjStore.getD 0 defaultPyObj ∧
      (translateOp exampleObjStore 0 ⟨1, 0, 0⟩).2 = exampleObjStore.length) ∧
    ((0 : ℕ) < exampleObjStore.length ∧
      ((setK exampleObjStore 0 (some 1)).1.getD 0 defaultPyObj).smoothK = some 1 ∧
      (setK exampleObjStore 0 (some 1)).2 = 0) := by
  have hlen : (0 : ℕ) < exampleObjStore.length := by
    simp [exampleObjStore]
  have h1 := fields_immutable_except_setK.1 exampleObjStore 0 ⟨1, 0, 0⟩ 0 hlen
  have h2 := fields_immutable_except_setK.2 exampleObjStore 0 (some 1) hlen
  exact ⟨⟨hlen, h1.1, h1.2⟩, ⟨hlen, h2.1, h2.2⟩⟩

-- C10: evaluation never writes to the caller's input batch

/-- A 2-D `numpy` float array, row-major. -/
abbrev PyArr := List (List ℝ)

/-- A heap of arrays. Operations that `numpy` documents as returning fresh
arrays (`np.abs`, arithmetic, fancy indexing, a field call) allocate; the
source's masked assignment `a[w] = ...`, column assignment `q[:, 2] = z` and
`A[w] = B[w]` are writes to a heap cell. -/
abbrev ArrStore := List PyArr

def allocArr (st : ArrStore) (a : PyArr) : ArrStore × ℕ := (st ++ [a], st.length)

def writeArr (st : ArrStore) (i : ℕ) (a : PyArr) : ArrStore := st.set i a

def readArr (st : ArrStore) (i : ℕ) : PyArr := st.getD i []

/-- `np.clip(v, 0, 1)`. -/
def clip01 (v : ℝ) : ℝ := min (max v 0) 1

/-- `np.sign`. -/
def npsign (v : ℝ) : ℝ := if v < 0 then -1 else if v = 0 then 0 else 1

/-- The per-row distance formula of `pyramid(h)`, taking the row of the
(possibly swapped) array `a` and the row of the input batch `p`. -/
def pyramidRow (h : ℝ) (arow prow : List ℝ) : ℝ :=
  let px := arow.getD 0 0
  let py := prow.getD 2 0
  let pz := arow.getD 1 0
  let m2 := h * h + 0.25
  let qx := pz
  let qy := h * py - 0.5 * px
  let qz := h * px + 0.5 * py
  let s := max (-qx) 0
  let t := clip01 ((qy - 0.5 * pz) / (m2 + 0.25))
  let a := m2 * (qx + s) ^ 2 + qy * qy
  let b := m2 * (qx + 0.5 * t) ^ 2 + (qy - m2 * t) ^ 2
  let d2 := if 0 < min qy (-qx * m2 - qy * 0.5) then 0 else min a b
  Real.sqrt ((d2 + qz * qz) / m2) * npsign (max qz (-py))

/-- `pyramid(h)` evaluated on the batch stored at `ip`: the array
`a = np.abs(p[:, [0, 1]]) - 0.5` is freshly allocated, the conditional axis
swap `a[w] = a[:, [1, 0]][w]` writes to that fresh cell, and the distance
rows are computed from the swapped array and the input batch. -/
def pyramidEval (h : ℝ) (st : ArrStore) (ip : ℕ) : ArrStore × List ℝ :=
  let P := readArr st ip
  let a0 : PyArr := P.map (fun row => [|row.getD 0 0| - 0.5, |row.getD 1 0| - 0.5])
  let sr := allocArr st a0
  let A := readArr sr.1 sr.2
  let A2 := A.map (fun row =>
    if row.getD 0 0 < row.getD 1 0 then [row.getD 1 0, row.getD 0 0] else row)
  let st2 := writeArr sr.1 sr.2 A2
  let A3 := readArr st2 sr.2
  (st2, (A3.zip P).map (fun ap => pyramidRow h ap.1 ap.2))

/-- `wrap_around(other, x0, x1, r, e)` evaluated on the batch stored at `ip`:
`q = p0 + (p1 - p0) * t + v * d` (with `p0 = X*x0`, `p1 = X*x1`, `v = -Y`) is
freshly allocated, the column assignment `q[:, 2] = z` writes to that fresh
cell, and the wrapped field is evaluated on the result. -/
def wrapAroundEval (other : Vec3 → ℝ) (x0 x1 r : ℝ) (e : ℝ → ℝ)
    (st : ArrStore) (ip : ℕ) : ArrStore × List ℝ :=
  let P := readArr st ip
  let q0 : PyArr := P.map (fun row =>
    let x := row.getD 0 0
    let y := row.getD 1 0
    let d := Real.sqrt (x ^ 2 + y ^ 2) - r
    let t := e ((atan2 y x + Real.pi) / (2 * Real.pi))
    [x0 + (x1 - x0) * t, -d, 0])
  let sr := allocArr st q0
  let Q := readArr sr.1 sr.2
  let Q2 := (Q.zip P).map (fun qp => [qp.1.getD 0 0, qp.1.getD 1 0, qp.2.getD 2 0])
  let st2 := writeArr sr.1 sr.2 Q2
  let Q3 := readArr st2 sr.2
  (st2, Q3.map (fun row => other ⟨row.getD 0 0, row.getD 1 0, row.getD 2 0⟩))

/-- Modelled from the spec: the smoothing-kernel collaborator's
`intersection` at `k = None` is the hard pointwise maximum (spec §4.5, §6);
the `dn` module itself is outside `src/`. -/
def dnIntersection2 (f g : Vec3 → ℝ) : Vec3 → ℝ := fun p => max (f p) (g p)

/-- Modelled from the spec: the collaborator's `negate` is the pointwise
negation of a field ("the field, and its negation", spec §4.6). -/
def dnNegate (f : Vec3 → ℝ) : Vec3 → ℝ := fun p => -(f p)

/-- `slab(z0=..., z1=...)` from the source, restricted to the two bounds used
by `slice`: the intersection of `plane(Z, (0, 0, z0))` and
`plane(-Z, (0, 0, z1))`. -/
def slabZ (z0 z1 : ℝ) : Vec3 → ℝ :=
  dnIntersection2 (plane ⟨0, 0, 1⟩ ⟨0, 0, z0⟩) (plane ⟨0, 0, -1⟩ ⟨0, 0, z1⟩)

/-- `slice(other)` evaluated on the 2-D batch stored at `ip`: the rebuilt 3-D
batch at `z = 0` and both field readings `A = a(p)`, `B = -b(p)` are fresh,
and the selective overwrite `A[w] = B[w]` writes to the fresh cell holding
`A`. -/
def sliceEval (other : Vec3 → ℝ) (st : ArrStore) (ip : ℕ) : ArrStore × List ℝ :=
  let s := slabZ (-1e-9) 1e-9
  let aF := dnIntersection2 other s
  let bF := dnIntersection2 (dnNegate other) s
  let P := readArr st ip
  let p3 : List Vec3 := P.map (fun row => ⟨row.getD 0 0, row.getD 1 0, 0⟩)
  let A0 : PyArr := p3.map (fun v => [aF v])
  let sr := allocArr st A0
  let B : PyArr := p3.map (fun v => [-(bF v)])
  let A := readArr sr.1 sr.2
  let A2 := (A.zip B).map (fun ab =>
    if ab.1.getD 0 0 ≤ 0 then ab.2 else ab.1)
  let st2 := writeArr sr.1 sr.2 A2
  let A3 := readArr st2 sr.2
  (st2, A3.map (fun row => row.getD 0 0))

/-- The only array written during any of the three evaluations is the one
freshly allocated at the end of the heap, so every earlier cell — in
particular the caller's input batch — is untouched. -/
theorem store_frame (st : ArrStore) (a A2 : PyArr) (ip : ℕ) (hip : ip < st.length) :
    readArr (writeArr (st ++ [a]) st.length A2) ip = readArr st ip := by
  simp only [readArr, writeArr, List.getD_eq_getElem?_getD]
  rw [List.getElem?_set_ne (Nat.ne_of_lt hip).symm]
  rw [List.getElem?_append_left hip]

/-- Claim C10: evaluating `pyramid`, `wrap_around` or `slice` — the three
operations whose source performs in-place `numpy` assignments (the
conditional axis swap, the column assignment, and the selective overwrite) —
leaves the caller's input point batch unchanged: each write targets a freshly
derived array, never the input batch itself. -/
theorem eval_preserves_input_batch :
    (∀ (h : ℝ) (st : ArrStore) (ip : ℕ), ip < st.length →
      readArr (pyramidEval h st ip).1 ip = readArr st ip) ∧
    (∀ (other : Vec3 → ℝ) (x0 x1 r : ℝ) (e : ℝ → ℝ) (st : ArrStore) (ip : ℕ),
      ip < st.length →
      readArr (wrapAroundEval other x0 x1 r e st ip).1 ip = readArr st ip) ∧
    (∀ (other : Vec3 → ℝ) (st : ArrStore) (ip : ℕ), ip < st.length →
      readArr (sliceEval other st ip).1 ip = readArr st ip) := by
  refine ⟨?_, ?_, ?_⟩
  · intro h st ip hip
    exact store_frame st _ _ ip hip
  · intro other x0 x1 r e st ip hip
    exact store_frame st _ _ ip hip
  · intro other st ip hip
    exact store_frame st _ _ ip hip

/-- Witness for C10 on a one-array heap holding the batch `[[1, 2, 3]]`
(and `[[1, 2]]` for `slice`). -/
theorem eval_preserves_input_batch_witness :
    ((0 : ℕ) < ([[[1, 2, 3]]] : ArrStore).length ∧
      readArr (pyramidEval 2 [[[1, 2, 3]]] 0).1 0 = readArr [[[1, 2, 3]]] 0) ∧
    ((0 : ℕ) < ([[[1, 2, 3]]] : ArrStore).length ∧
      readArr (wrapAroundEval (fun _ => 0) 0 1 1 id [[[1, 2, 3]]] 0).1 0 =
        readArr [[[1, 2, 3]]] 0) ∧
    ((0 : ℕ) < ([[[1, 2]]] : ArrStore).length ∧
      readArr (sliceEval (fun _ => 0) [[[1, 2]]] 0).1 0 = readArr [[[1, 2]]] 0) := by
  have h3 : (0 : ℕ) < ([[[1, 2, 3]]] : ArrStore).length := by norm_num
  have h2 : (0 : ℕ) < ([[[1, 2]]] : ArrStore).length := by norm_num
  exact ⟨⟨h3, eval_preserves_input_batch.1 2 [[[1, 2, 3]]] 0 h3⟩,
    ⟨h3, eval_preserves_input_batch.2.1 (fun _ => 0) 0 1 1 id [[[1, 2, 3]]] 0 h3⟩,
    ⟨h2, eval_preserves_input_batch.2.2 (fun _ => 0) [[[1, 2]]] 0 h2⟩⟩

end

end SDFSpec
